import Mathlib

/-!
# Verification of the nakamoto-cash SPV core

A shallow embedding of parts of the nakamoto-cash Bitcoin Cash SPV client,
together with proofs about them:

* the CashToken prefix codec (`src/bitcoincash/src/blockdata/token.rs`),
* the BIP-37 Bloom filter primitive (`src/bitcoincash/src/util/bloom.rs`),
* the byte-capacity filter cache (`src/p2p/src/fsm/bloom_cache.rs`),
* the merkle-block rescan state machine (`src/p2p/src/fsm/bfmgr/rescan.rs`),
* difficulty retargeting (`src/common/src/block/tree.rs`).

Bytes are modelled as `Nat` values (< 256 where produced by the code);
machine integers are `Nat`/`Int` with explicit reduction modulo `2 ^ w`
where the Rust code wraps; fallible or panicking Rust code returns
`Option`.
-/

namespace NakamotoCash

/-! ## Consensus codec primitives

Modelled from the spec: the `consensus::encode` module of the repository's
`bitcoincash` crate is not under `src/`; the spec (§4.1 Codec) fixes the
formats: integers are little-endian, `VarInt` uses the Bitcoin scheme
(single byte < 0xFD; else 0xFD+u16, 0xFE+u32, 0xFF+u64), and byte strings
are length-prefixed by `VarInt`. -/

/-- Little-endian encoding of the low `w` bytes of `n`. -/
def encodeLE : Nat → Nat → List Nat
  | 0, _ => []
  | w + 1, n => n % 256 :: encodeLE w (n / 256)

/-- Read `w` little-endian bytes off the front of a byte list. -/
def decodeLE : Nat → List Nat → Option (Nat × List Nat)
  | 0, bs => some (0, bs)
  | _ + 1, [] => none
  | w + 1, b :: bs => (decodeLE w bs).map (fun p => (b + 256 * p.1, p.2))

theorem encodeLE_length (w n : Nat) : (encodeLE w n).length = w := by
  induction w generalizing n with
  | zero => rfl
  | succ w ih => simp [encodeLE, ih]

theorem decodeLE_encodeLE (w n : Nat) (rest : List Nat) :
    decodeLE w (encodeLE w n ++ rest) = some (n % 256 ^ w, rest) := by
  induction w generalizing n with
  | zero => simp [encodeLE, decodeLE, Nat.mod_one]
  | succ w ih =>
      have h : n % 256 ^ (w + 1) = n % 256 + 256 * (n / 256 % 256 ^ w) := by
        rw [pow_succ', Nat.mod_mul]
      simp [encodeLE, decodeLE, ih, h]

/-- Modelled from the spec: Bitcoin `VarInt` encoding (`consensus::encode`,
not under `src/`): "single byte <0xFD; else 0xFD+u16, 0xFE+u32, 0xFF+u64". -/
def varintEncode (n : Nat) : List Nat :=
  if n < 0xFD then [n]
  else if n < 2 ^ 16 then 0xFD :: encodeLE 2 n
  else if n < 2 ^ 32 then 0xFE :: encodeLE 4 n
  else 0xFF :: encodeLE 8 n

/-- Modelled from the spec: Bitcoin `VarInt` decoding, with the upstream
minimal-encoding check (a value that would fit a shorter form is refused). -/
def varintDecode : List Nat → Option (Nat × List Nat)
  | [] => none
  | b :: bs =>
    if b = 0xFF then
      (decodeLE 8 bs).bind (fun p => if p.1 < 2 ^ 32 then none else some p)
    else if b = 0xFE then
      (decodeLE 4 bs).bind (fun p => if p.1 < 2 ^ 16 then none else some p)
    else if b = 0xFD then
      (decodeLE 2 bs).bind (fun p => if p.1 < 0xFD then none else some p)
    else some (b, bs)

theorem varintDecode_varintEncode (n : Nat) (h : n < 2 ^ 64) (rest : List Nat) :
    varintDecode (varintEncode n ++ rest) = some (n, rest) := by
  unfold varintEncode
  split_ifs with h1 h2 h3
  · have b1 : ¬ (n = 0xFF) := by omega
    have b2 : ¬ (n = 0xFE) := by omega
    have b3 : ¬ (n = 0xFD) := by omega
    simp [varintDecode, b1, b2, b3]
  · have hm : n % 256 ^ 2 = n :=
      Nat.mod_eq_of_lt (by have := h2; norm_num at this ⊢; omega)
    simp only [List.cons_append, varintDecode]
    norm_num [decodeLE_encodeLE]
    omega
  · have hm : n % 256 ^ 4 = n :=
      Nat.mod_eq_of_lt (by have := h3; norm_num at this ⊢; omega)
    simp only [List.cons_append, varintDecode]
    norm_num [decodeLE_encodeLE]
    omega
  · have hm : n % 256 ^ 8 = n :=
      Nat.mod_eq_of_lt (by have := h; norm_num at this ⊢; omega)
    simp only [List.cons_append, varintDecode]
    norm_num [decodeLE_encodeLE]
    omega

/-- Read exactly `k` bytes off the front of a byte list. -/
def readN : Nat → List Nat → Option (List Nat × List Nat)
  | 0, bs => some ([], bs)
  | _ + 1, [] => none
  | k + 1, b :: bs => (readN k bs).map (fun p => (b :: p.1, p.2))

theorem readN_append (xs rest : List Nat) :
    readN xs.length (xs ++ rest) = some (xs, rest) := by
  induction xs with
  | nil => simp [readN]
  | cons b bs ih => simp [readN, ih]

/-- `Vec<u8>` consensus encoding: `VarInt` length prefix followed by the bytes. -/
def bytesEncode (v : List Nat) : List Nat :=
  varintEncode v.length ++ v

/-- `Vec<u8>` consensus decoding. -/
def bytesDecode (bs : List Nat) : Option (List Nat × List Nat) :=
  (varintDecode bs).bind (fun p => readN p.1 p.2)

theorem bytesDecode_bytesEncode (v : List Nat) (h : v.length < 2 ^ 64)
    (rest : List Nat) :
    bytesDecode (bytesEncode v ++ rest) = some (v, rest) := by
  unfold bytesEncode bytesDecode
  rw [List.append_assoc, varintDecode_varintEncode v.length h]
  simpa using readN_append v rest

/-! ## CashToken prefix codec

Embedding of `src/bitcoincash/src/blockdata/token.rs`. A `Script` is its
byte list; `TokenID` consensus encoding is its raw 32 bytes. -/

/-- `OP_SPECIAL_TOKEN_PREFIX`, the byte prepended to token-carrying
scriptPubKeys (spec: 0xEF). -/
def PREFIX_BYTE : Nat := 0xEF

/-- The `i64 -> u64` `as` cast used by `OutputData::consensus_encode`
(`VarInt(self.amount as u64)`): two's-complement reduction modulo `2 ^ 64`. -/
def u64ofI64 (a : Int) : Nat := (a % (2 ^ 64 : Int)).toNat

/-- The `u64 -> i64` `as` cast used by `OutputData::consensus_decode`
(`amount.0 as i64`). -/
def i64ofU64 (n : Nat) : Int := if n < 2 ^ 63 then (n : Int) else (n : Int) - 2 ^ 64

/-- `token::OutputData`: token id (32 bytes), bitfield byte, amount (i64),
NFT commitment bytes. -/
structure OutputData where
  id : List Nat
  bitfield : Nat
  amount : Int
  commitment : List Nat
deriving DecidableEq, Repr

namespace OutputData

/-- `OutputData::has_commitment_length`: the `Structure::HasCommitmentLength`
bit (0x40) is set in the bitfield. -/
def hasCommitmentLength (d : OutputData) : Prop := d.bitfield &&& 0x40 ≠ 0

/-- `OutputData::has_amount`: the `Structure::HasAmount` bit (0x10) is set in
the bitfield. -/
def hasAmount (d : OutputData) : Prop := d.bitfield &&& 0x10 ≠ 0

instance (d : OutputData) : Decidable d.hasCommitmentLength := by
  unfold hasCommitmentLength; infer_instance

instance (d : OutputData) : Decidable d.hasAmount := by
  unfold hasAmount; infer_instance

/-- `OutputData::consensus_encode`: id, bitfield, then the commitment
(VarInt-length-prefixed) iff `HasCommitmentLength`, then the amount as a
VarInt iff `HasAmount`. -/
def encode (d : OutputData) : List Nat :=
  d.id ++ [d.bitfield]
    ++ (if d.hasCommitmentLength then bytesEncode d.commitment else [])
    ++ (if d.hasAmount then varintEncode (u64ofI64 d.amount) else [])

/-- `OutputData::consensus_decode`: reads the fields back, defaulting the
commitment to `[]` and the amount to `VarInt(0)` when the matching bit is
unset. Returns the decoded value and the unconsumed tail (the number of
bytes consumed by `deserialize_partial` is the part of the input before the
tail). -/
def decode (bs : List Nat) : Option (OutputData × List Nat) :=
  (readN 32 bs).bind (fun pid =>
    match pid.2 with
    | [] => none
    | bitfield :: r1 =>
      (if bitfield &&& 0x40 ≠ 0 then bytesDecode r1 else some ([], r1)).bind
        (fun pc =>
          (if bitfield &&& 0x10 ≠ 0 then varintDecode pc.2
           else some (0, pc.2)).bind
            (fun pa =>
              some (⟨pid.1, bitfield, i64ofU64 pa.1, pc.1⟩, pa.2))))

end OutputData

/-- `token::wrap_scriptpubkey`: prepend `0xEF` and the serialized token data
iff token data is present. -/
def wrap_scriptpubkey (s : List Nat) (tokenData : Option OutputData) : List Nat :=
  match tokenData with
  | some d => PREFIX_BYTE :: (OutputData.encode d ++ s)
  | none => s

/-- `token::unwrap_scriptpubkey`: pass non-token scripts through; otherwise
partially deserialize the `OutputData` and return the remaining bytes as the
real script. `none` models the `Err` branch. -/
def unwrap_scriptpubkey (s : List Nat) : Option (List Nat × Option OutputData) :=
  match s with
  | [] => some (s, none)
  | b :: rest =>
    if b ≠ PREFIX_BYTE then some (b :: rest, none)
    else
      match OutputData.decode rest with
      | some (d, remaining) => some (remaining, some d)
      | none => none

theorem outputData_decode_encode (d : OutputData) (rest : List Nat)
    (hid : d.id.length = 32)
    (hcomm : d.commitment ≠ [] → d.hasCommitmentLength)
    (hcl : d.commitment.length < 2 ^ 64)
    (hamt : d.amount ≠ 0 → d.hasAmount)
    (hconv : i64ofU64 (u64ofI64 d.amount) = d.amount) :
    OutputData.decode (OutputData.encode d ++ rest) = some (d, rest) := by
  obtain ⟨tid, bitfield, amount, commitment⟩ := d
  have hid2 : tid.length = 32 := hid
  have hcomm2 : commitment ≠ [] → bitfield &&& 0x40 ≠ 0 := hcomm
  have hcl2 : commitment.length < 2 ^ 64 := hcl
  have hamt2 : amount ≠ 0 → bitfield &&& 0x10 ≠ 0 := hamt
  have hconv2 : i64ofU64 (u64ofI64 amount) = amount := hconv
  have hu : u64ofI64 amount < 2 ^ 64 := by
    unfold u64ofI64
    have h1 : (0 : Int) ≤ amount % (2 ^ 64 : Int) := Int.emod_nonneg _ (by norm_num)
    have h2 : amount % (2 ^ 64 : Int) < 2 ^ 64 := Int.emod_lt_of_pos _ (by norm_num)
    omega
  unfold OutputData.encode OutputData.decode OutputData.hasCommitmentLength
    OutputData.hasAmount
  simp only [List.append_assoc, List.cons_append]
  rw [← hid2, readN_append]
  simp only [Option.some_bind]
  by_cases hc : bitfield &&& 0x40 ≠ 0
  · by_cases ha : bitfield &&& 0x10 ≠ 0
    · rw [if_pos hc, if_pos ha, if_pos hc]
      simp only [List.nil_append]
      rw [bytesDecode_bytesEncode commitment hcl2]
      simp only [Option.some_bind]
      rw [if_pos ha, varintDecode_varintEncode _ hu]
      simp [hconv2]
    · have hz : amount = 0 := by
        by_contra hnz; exact ha (hamt2 hnz)
      rw [if_pos hc, if_neg ha, if_pos hc]
      simp only [List.nil_append, List.append_nil]
      rw [bytesDecode_bytesEncode commitment hcl2]
      simp only [Option.some_bind]
      rw [if_neg ha]
      simp [hz, i64ofU64]
  · have hce : commitment = [] := by
      by_contra hne; exact hc (hcomm2 hne)
    by_cases ha : bitfield &&& 0x10 ≠ 0
    · rw [if_neg hc, if_pos ha, if_neg hc]
      simp only [List.nil_append, Option.some_bind]
      rw [if_pos ha, varintDecode_varintEncode _ hu]
      simp [hconv2, hce]
    · have hz : amount = 0 := by
        by_contra hnz; exact ha (hamt2 hnz)
      rw [if_neg hc, if_neg ha, if_neg hc]
      simp only [List.nil_append, List.append_nil, Option.some_bind]
      rw [if_neg ha]
      simp [hz, hce, i64ofU64]

/-- C1: CashToken prefix round-trip. For every scriptPubKey `s` and valid
`OutputData` `d` (commitment non-empty only under the 0x40 bit, amount
non-zero only under the 0x10 bit, the amount surviving the
i64/u64/VarInt conversion, id 32 bytes, commitment length below `2 ^ 64`),
`unwrap_scriptpubkey (wrap_scriptpubkey s (some d))` succeeds with
`(s, some d)`; and `wrap_scriptpubkey s none` is `s` unchanged. -/
theorem token_wrap_unwrap_roundtrip (s : List Nat) (d : OutputData)
    (hid : d.id.length = 32)
    (hcomm : d.commitment ≠ [] → d.hasCommitmentLength)
    (hcl : d.commitment.length < 2 ^ 64)
    (hamt : d.amount ≠ 0 → d.hasAmount)
    (hconv : i64ofU64 (u64ofI64 d.amount) = d.amount) :
    unwrap_scriptpubkey (wrap_scriptpubkey s (some d)) = some (s, some d)
      ∧ wrap_scriptpubkey s none = s := by
  constructor
  · show unwrap_scriptpubkey (PREFIX_BYTE :: (OutputData.encode d ++ s))
      = some (s, some d)
    simp only [unwrap_scriptpubkey, ne_eq, not_true_eq_false, if_false,
      outputData_decode_encode d s hid hcomm hcl hamt hconv]
  · rfl

/-- Witness for C1 at a concrete script and token datum. -/
theorem token_wrap_unwrap_roundtrip_witness :
    unwrap_scriptpubkey
        (wrap_scriptpubkey [0xAB, 0xCD]
          (some ⟨List.replicate 32 0xAA, 0x51, 9223372036854775807, [0xCC]⟩))
      = some ([0xAB, 0xCD],
          some ⟨List.replicate 32 0xAA, 0x51, 9223372036854775807, [0xCC]⟩) := by
  have h := token_wrap_unwrap_roundtrip [0xAB, 0xCD]
    ⟨List.replicate 32 0xAA, 0x51, 9223372036854775807, [0xCC]⟩
    (by decide) (by intro h; decide) (by decide) (by intro h; decide)
    (by decide)
  exact h.1

/-! ## BIP-37 Bloom filter primitive

Embedding of `src/bitcoincash/src/util/bloom.rs`. The external `murmur3`
crate's `murmur3_32` is abstracted as a parameter `murmur` (its result is
reduced modulo `2 ^ 32`, as a `u32` value); every theorem below holds for
every such function. `BloomFilter::new` is floating-point and is not
embedded. -/

/-- `bloom::BloomFilter`. -/
structure BloomFilter where
  content : List Nat
  hashes : Nat
  tweak : Nat
  flags : Nat
deriving DecidableEq, Repr

namespace BloomFilter

/-- The body of `BloomFilter::hash` as a function of the content length:
seed is `(hashes as u64 * 0xFBA4C795 + self.tweak as u64) as u32`, the
murmur3 value is reduced modulo `content.len() * 8`. `none` models the two
panics: the `usize -> u32` `try_into().unwrap()` when the bit length
exceeds `u32::MAX`, and the `x % 0` panic when the content is empty. -/
def hashRaw (murmur : List Nat → Nat → Nat) (tweak len i : Nat)
    (data : List Nat) : Option Nat :=
  let seed := (i * 0xFBA4C795 + tweak) % 2 ^ 64 % 2 ^ 32
  let x := murmur data seed % 2 ^ 32
  let modulus := len * 8
  if modulus < 2 ^ 32 then
    if modulus = 0 then none else some (x % modulus)
  else none

/-- `BloomFilter::hash`. -/
def hash (murmur : List Nat → Nat → Nat) (f : BloomFilter) (i : Nat)
    (data : List Nat) : Option Nat :=
  hashRaw murmur f.tweak f.content.length i data

/-- The loop body of `BloomFilter::insert`:
`self.content[index >> 3] |= 1 << (7 & index)` over the hash indices `l`,
with `none` for an out-of-bounds index (a Rust panic). -/
def insertLoop (murmur : List Nat → Nat → Nat) (data : List Nat) (tweak : Nat) :
    List Nat → List Nat → Option (List Nat)
  | content, [] => some content
  | content, i :: is =>
    (hashRaw murmur tweak content.length i data).bind (fun index =>
      match content[index >>> 3]? with
      | none => none
      | some b =>
        insertLoop murmur data tweak
          (content.set (index >>> 3) (b ||| (1 <<< (7 &&& index)))) is)

/-- `BloomFilter::insert`: set the bit for each of `0..hashes`. -/
def insert (murmur : List Nat → Nat → Nat) (f : BloomFilter)
    (data : List Nat) : Option BloomFilter :=
  (insertLoop murmur data f.tweak f.content (List.range f.hashes)).map
    (fun c => { f with content := c })

/-- The loop body of `BloomFilter::cointains`: return `false` on the first
unset bit, `true` if every hash position is set. -/
def containsLoop (murmur : List Nat → Nat → Nat) (f : BloomFilter)
    (data : List Nat) : List Nat → Option Bool
  | [] => some true
  | i :: is =>
    (hash murmur f i data).bind (fun index =>
      match f.content[index >>> 3]? with
      | none => none
      | some b =>
        if b &&& (1 <<< (7 &&& index)) = 0 then some false
        else containsLoop murmur f data is)

/-- `BloomFilter::cointains` (the membership test; name as in the source). -/
def cointains (murmur : List Nat → Nat → Nat) (f : BloomFilter)
    (data : List Nat) : Option Bool :=
  if f.hashes = 0 then some false
  else containsLoop murmur f data (List.range f.hashes)

/-- A byte has the bit the source tests (`b & (1 << (7 & index)) != 0`)
exactly when `testBit` at that position holds. -/
theorem and_shift_ne_zero_iff (b k : Nat) :
    b &&& (1 <<< k) ≠ 0 ↔ b.testBit k := by
  rw [Nat.one_shiftLeft, Nat.and_two_pow]
  cases h : b.testBit k <;> simp [h]

theorem insertLoop_length (murmur : List Nat → Nat → Nat) (data : List Nat)
    (tweak : Nat) (l : List Nat) :
    ∀ content c, insertLoop murmur data tweak content l = some c →
      c.length = content.length := by
  induction l with
  | nil => intro content c h; cases h; rfl
  | cons i is ih =>
      intro content c h
      unfold insertLoop at h
      cases hh : hashRaw murmur tweak content.length i data with
      | none => rw [hh] at h; cases h
      | some index =>
          rw [hh] at h
          simp only [Option.some_bind] at h
          cases hg : content[index >>> 3]? with
          | none => rw [hg] at h; cases h
          | some b =>
              rw [hg] at h
              have := ih _ _ h
              simpa [List.length_set] using this

theorem insertLoop_mono (murmur : List Nat → Nat → Nat) (data : List Nat)
    (tweak : Nat) (l : List Nat) :
    ∀ content c, insertLoop murmur data tweak content l = some c →
      ∀ j k, (content.getD j 0).testBit k → (c.getD j 0).testBit k := by
  induction l with
  | nil => intro content c h j k hb; cases h; exact hb
  | cons i is ih =>
      intro content c h j k hb
      unfold insertLoop at h
      cases hh : hashRaw murmur tweak content.length i data with
      | none => rw [hh] at h; cases h
      | some index =>
          rw [hh] at h
          simp only [Option.some_bind] at h
          cases hg : content[index >>> 3]? with
          | none => rw [hg] at h; cases h
          | some b =>
              rw [hg] at h
              refine ih _ _ h j k ?_
              by_cases hj : j = index >>> 3
              · subst hj
                have hlt : index >>> 3 < content.length :=
                  (List.getElem?_eq_some_iff.mp hg).1
                have hbv : content.getD (index >>> 3) 0 = b := by
                  rw [List.getD_eq_getElem?_getD, hg]
                  rfl
                rw [List.getD_eq_getElem?_getD, List.getElem?_set_self hlt]
                rw [hbv] at hb
                simp [Nat.testBit_or, hb]
              · rw [List.getD_eq_getElem?_getD, List.getElem?_set_ne (fun hx => hj hx.symm)]
                rw [List.getD_eq_getElem?_getD] at hb
                exact hb

theorem insertLoop_sets (murmur : List Nat → Nat → Nat) (data : List Nat)
    (tweak : Nat) (l : List Nat) :
    ∀ content c, insertLoop murmur data tweak content l = some c →
      ∀ i ∈ l, ∃ index, hashRaw murmur tweak content.length i data = some index ∧
        index >>> 3 < content.length ∧
        (c.getD (index >>> 3) 0).testBit (7 &&& index) := by
  induction l with
  | nil => intro content c _ i hi; cases hi
  | cons i0 is ih =>
      intro content c h i hi
      unfold insertLoop at h
      cases hh : hashRaw murmur tweak content.length i0 data with
      | none => rw [hh] at h; cases h
      | some index0 =>
          rw [hh] at h
          simp only [Option.some_bind] at h
          cases hg : content[index0 >>> 3]? with
          | none => rw [hg] at h; cases h
          | some b =>
              rw [hg] at h
              have hlt : index0 >>> 3 < content.length :=
                (List.getElem?_eq_some_iff.mp hg).1
              have hlen : (content.set (index0 >>> 3)
                  (b ||| (1 <<< (7 &&& index0)))).length = content.length :=
                List.length_set _ _ _
              rcases List.mem_cons.mp hi with hieq | hitail
              · subst hieq
                refine ⟨index0, hh, hlt, ?_⟩
                refine insertLoop_mono murmur data tweak is _ _ h _ _ ?_
                rw [List.getD_eq_getElem?_getD, List.getElem?_set_self hlt]
                simp [Nat.testBit_or, Nat.one_shiftLeft, Nat.testBit_two_pow_self]
              · have := ih _ _ h i hitail
                rw [hlen] at this
                exact this

/-- C3: membership after insertion. For every murmur3 function, every
filter with at least one hash function (as every filter built by
`BloomFilter::new` has, by the clamp to `[1, 50]`), and every element whose
insertion succeeds, the membership test `cointains` returns `true`. -/
theorem bloom_insert_cointains (murmur : List Nat → Nat → Nat)
    (f : BloomFilter) (data : List Nat) (f' : BloomFilter)
    (hh : 1 ≤ f.hashes)
    (hins : insert murmur f data = some f') :
    cointains murmur f' data = some true := by
  unfold insert at hins
  cases hloop : insertLoop murmur data f.tweak f.content (List.range f.hashes) with
  | none => rw [hloop] at hins; cases hins
  | some ct =>
      rw [hloop] at hins
      have hins2 : ({ f with content := ct } : BloomFilter) = f' := by
        simpa using hins
      subst hins2
      have hlen : ct.length = f.content.length :=
        insertLoop_length murmur data f.tweak _ _ _ hloop
      have hsets := insertLoop_sets murmur data f.tweak _ _ _ hloop
      unfold cointains
      have hne : ¬ (f.hashes = 0) := by omega
      rw [if_neg (show ¬ (({ f with content := ct } : BloomFilter).hashes = 0)
        from hne)]
      -- prove the contains loop succeeds over any sublist of the range
      have main : ∀ (l : List Nat), (∀ i ∈ l, i ∈ List.range f.hashes) →
          containsLoop murmur { f with content := ct } data l = some true := by
        intro l
        induction l with
        | nil => intro _; rfl
        | cons i is ihc =>
            intro hsub
            have hi : i ∈ List.range f.hashes := hsub i (List.mem_cons_self i is)
            obtain ⟨index, hhash, hidx, hbit⟩ := hsets i hi
            unfold containsLoop
            have hhash2 : hash murmur { f with content := ct } i data = some index := by
              unfold hash
              dsimp only
              rw [hlen]
              exact hhash
            rw [hhash2]
            simp only [Option.some_bind]
            have hidx2 : index >>> 3 < ct.length := by rw [hlen]; exact hidx
            have hget : ct[index >>> 3]? = some (ct.getD (index >>> 3) 0) := by
              rw [List.getD_eq_getElem?_getD]
              cases hx : ct[index >>> 3]? with
              | none =>
                  exact absurd (List.getElem?_eq_none_iff.mp hx) (by omega)
              | some v => rfl
            rw [hget]
            have hnz : (ct.getD (index >>> 3) 0) &&& (1 <<< (7 &&& index)) ≠ 0 :=
              (and_shift_ne_zero_iff _ _).mpr hbit
            show (if ct.getD (index >>> 3) 0 &&& 1 <<< (7 &&& index) = 0
              then some false
              else containsLoop murmur { f with content := ct } data is)
              = some true
            rw [if_neg hnz]
            exact ihc (fun j hj => hsub j (List.mem_cons_of_mem i hj))
      exact main (List.range f.hashes) (fun i hi => hi)

/-- Witness for C3: a concrete filter, a trivial murmur function, and a
concrete element. -/
theorem bloom_insert_cointains_witness :
    cointains (fun _ _ => 5) ⟨[32, 0], 2, 7, 0⟩ [1, 2, 3] = some true := by
  have h : insert (fun _ _ => 5) ⟨[0, 0], 2, 7, 0⟩ [1, 2, 3]
      = some ⟨[32, 0], 2, 7, 0⟩ := by decide
  exact bloom_insert_cointains (fun _ _ => 5) ⟨[0, 0], 2, 7, 0⟩ [1, 2, 3]
    ⟨[32, 0], 2, 7, 0⟩ (by decide) h

/-- C10: totality of the position computation. On a filter with non-empty
content (whose bit length fits `u32`, as any BIP-37 filter's does), `hash`
always returns an index below `content.len() * 8`, whose byte position
`index >> 3` is inside `content`, so `insert` and the membership test
perform no out-of-bounds access; on a filter with empty content the
position computation reduces modulo zero, `hash` has no value (a panic),
and `insert` is not total. -/
theorem bloom_hash_totality :
    (∀ (murmur : List Nat → Nat → Nat) (f : BloomFilter) (i : Nat)
        (data : List Nat), f.content ≠ [] → f.content.length * 8 < 2 ^ 32 →
      ∃ index, hash murmur f i data = some index ∧
        index < f.content.length * 8 ∧ index >>> 3 < f.content.length)
    ∧ (∀ (murmur : List Nat → Nat → Nat) (f : BloomFilter) (i : Nat)
        (data : List Nat), f.content = [] → hash murmur f i data = none)
    ∧ (∀ (murmur : List Nat → Nat → Nat) (f : BloomFilter)
        (data : List Nat), f.content = [] → 1 ≤ f.hashes →
      insert murmur f data = none) := by
  refine ⟨?_, ?_, ?_⟩
  · intro murmur f i data hne hlt
    have hlen : 0 < f.content.length := List.length_pos.mpr hne
    have hmod : f.content.length * 8 ≠ 0 := by positivity
    have hx : ∃ x, x = murmur data ((i * 0xFBA4C795 + f.tweak) % 2 ^ 64 % 2 ^ 32)
        % 2 ^ 32 := ⟨_, rfl⟩
    obtain ⟨x, hxe⟩ := hx
    refine ⟨x % (f.content.length * 8), ?_, ?_, ?_⟩
    · unfold hash hashRaw
      rw [if_pos hlt, if_neg hmod, hxe]
    · exact Nat.mod_lt _ (by omega)
    · have hidx : x % (f.content.length * 8) < f.content.length * 8 :=
        Nat.mod_lt _ (by omega)
      rw [Nat.shiftRight_eq_div_pow]
      omega
  · intro murmur f i data hempty
    unfold hash hashRaw
    rw [hempty]
    norm_num
  · intro murmur f data hempty hge
    unfold insert
    cases hr : List.range f.hashes with
    | nil =>
        exact absurd (List.range_eq_nil.mp hr) (by omega)
    | cons i is =>
        have hnone : hashRaw murmur f.tweak f.content.length i data = none := by
          unfold hashRaw
          rw [hempty]
          norm_num
        simp [insertLoop, hnone]

/-- Witness for C10 at concrete filters (one non-empty, one empty). -/
theorem bloom_hash_totality_witness :
    (∃ index, hash (fun _ _ => 9) ⟨[0], 1, 0, 0⟩ 0 [] = some index ∧
        index < 1 * 8 ∧ index >>> 3 < 1)
      ∧ hash (fun _ _ => 9) ⟨[], 1, 0, 0⟩ 0 [] = none
      ∧ insert (fun _ _ => 9) ⟨[], 1, 0, 0⟩ [] = none := by
  obtain ⟨h1, h2, h3⟩ := bloom_hash_totality
  exact ⟨h1 (fun _ _ => 9) ⟨[0], 1, 0, 0⟩ 0 [] (by decide) (by decide),
    h2 (fun _ _ => 9) ⟨[], 1, 0, 0⟩ 0 [] (by decide),
    h3 (fun _ _ => 9) ⟨[], 1, 0, 0⟩ [] (by decide) (by decide)⟩

end BloomFilter

/-! ## Byte-capacity filter cache

Embedding of `src/p2p/src/fsm/bloom_cache.rs`. The `BTreeMap<Height, T>` is
a key-sorted association list; the `Filter` trait's `len` (encoded size in
bytes) is a parameter `len`. -/

/-- `bloom_cache::FilterCache`. -/
structure FilterCache (T : Type) where
  cache : List (Nat × T)
  size : Nat
  capacity : Nat
deriving DecidableEq, Repr

namespace FilterCache

variable {T : Type}

/-- `FilterCache::new`. -/
def new (capacity : Nat) : FilterCache T := ⟨[], 0, capacity⟩

/-- Total encoded size of a list of cache entries. -/
def sumLens (len : T → Nat) (l : List (Nat × T)) : Nat :=
  (l.map (fun p => len p.2)).sum

/-- `BTreeMap::insert`: insert keeping keys sorted, replacing the value at
an existing key (without adjusting `size`, exactly as the source). -/
def insertSorted (h : Nat) (f : T) : List (Nat × T) → List (Nat × T)
  | [] => [(h, f)]
  | (k, g) :: t =>
      if h < k then (h, f) :: (k, g) :: t
      else if h = k then (h, f) :: t
      else (k, g) :: insertSorted h f t

/-- The eviction loop of `FilterCache::push`: while `size > capacity`,
remove the entry with the lowest height and subtract its length. (When the
map is empty and `size > capacity` the Rust loop never terminates; this
model returns the state unchanged there — the case is unreachable from the
`assert!(self.size <= self.capacity)` precondition.) -/
def evict (len : T → Nat) (cap : Nat) : List (Nat × T) → Nat → List (Nat × T) × Nat
  | [], size => ([], size)
  | (k, g) :: t, size =>
      if size ≤ cap then ((k, g) :: t, size)
      else evict len cap t (size - len g)

/-- `FilterCache::push`. `none` models the entry `assert!` panic. -/
def push (len : T → Nat) (c : FilterCache T) (h : Nat) (f : T) :
    Option (Bool × FilterCache T) :=
  if c.size ≤ c.capacity then
    if c.capacity < len f then some (false, c)
    else
      let cache1 := insertSorted h f c.cache
      let p := evict len c.capacity cache1 (c.size + len f)
      some (true, ⟨p.1, p.2, c.capacity⟩)
  else none

/-- `FilterCache::get`. -/
def get (c : FilterCache T) (h : Nat) : Option T :=
  (c.cache.find? (fun p => p.1 == h)).map (fun p => p.2)

/-- `FilterCache::rollback`: drop all entries with height greater than `h`
(the loop removes the maximal key while it exceeds `h`), subtracting their
lengths from `size`. -/
def rollback (len : T → Nat) (c : FilterCache T) (h : Nat) : FilterCache T :=
  ⟨c.cache.filter (fun q => decide (q.1 ≤ h)),
   c.size - sumLens len (c.cache.filter (fun q => ! decide (q.1 ≤ h))),
   c.capacity⟩

/-- States reachable by `new` followed by `push`/`rollback` operations in
which every push happens at a height not currently cached. -/
inductive ReachableFresh (len : T → Nat) : FilterCache T → Prop
  | ofNew (capacity : Nat) : ReachableFresh len (new capacity)
  | ofPush (c : FilterCache T) (h : Nat) (f : T) (b : Bool) (c2 : FilterCache T) :
      ReachableFresh len c → get c h = none →
      push len c h f = some (b, c2) → ReachableFresh len c2
  | ofRollback (c : FilterCache T) (h : Nat) :
      ReachableFresh len c → ReachableFresh len (rollback len c h)

theorem sumLens_append (len : T → Nat) (l1 l2 : List (Nat × T)) :
    sumLens len (l1 ++ l2) = sumLens len l1 + sumLens len l2 := by
  unfold sumLens
  rw [List.map_append, List.sum_append]

theorem sumLens_filter (len : T → Nat) (p : Nat × T → Bool) (l : List (Nat × T)) :
    sumLens len (l.filter p) + sumLens len (l.filter (fun x => ! p x)) =
      sumLens len l := by
  induction l with
  | nil => rfl
  | cons x t ih =>
      cases hx : p x <;>
      · simp [List.filter_cons, hx, sumLens] at ih ⊢
        omega

theorem evict_spec (len : T → Nat) (cap : Nat) (l : List (Nat × T)) :
    ∀ size : Nat,
      ∃ dropped, l = dropped ++ (evict len cap l size).1 ∧
        (evict len cap l size).2 = size - sumLens len dropped ∧
        ((evict len cap l size).2 ≤ cap ∨ (evict len cap l size).1 = []) := by
  induction l with
  | nil =>
      intro size
      exact ⟨[], rfl, by simp [evict, sumLens], Or.inr rfl⟩
  | cons x t ih =>
      intro size
      obtain ⟨k, g⟩ := x
      by_cases hs : size ≤ cap
      · refine ⟨[], ?_, ?_, ?_⟩
        · simp [evict, hs]
        · simp [evict, hs, sumLens]
        · left
          simp [evict, hs]
      · obtain ⟨dropped, h1, h2, h3⟩ := ih (size - len g)
        have he : evict len cap ((k, g) :: t) size = evict len cap t (size - len g) := by
          simp [evict, hs]
        refine ⟨(k, g) :: dropped, ?_, ?_, ?_⟩
        · rw [he]
          simpa using h1
        · rw [he, h2]
          simp [sumLens, Nat.sub_sub]
        · rw [he]
          exact h3

theorem get_eq_none_iff (c : FilterCache T) (h : Nat) :
    get c h = none ↔ ∀ q ∈ c.cache, q.1 ≠ h := by
  unfold get
  simp [List.find?_eq_none]

theorem sumLens_insertSorted (len : T → Nat) (h : Nat) (f : T)
    (l : List (Nat × T)) (hfresh : ∀ q ∈ l, q.1 ≠ h) :
    sumLens len (insertSorted h f l) = len f + sumLens len l := by
  induction l with
  | nil => simp [insertSorted, sumLens]
  | cons x t ih =>
      obtain ⟨k, g⟩ := x
      have hk : k ≠ h := hfresh (k, g) (List.mem_cons_self _ _)
      unfold insertSorted
      by_cases h1 : h < k
      · rw [if_pos h1]
        simp [sumLens]
      · rw [if_neg h1, if_neg (fun he => hk he.symm)]
        have ih2 := ih (fun q hq => hfresh q (List.mem_cons_of_mem _ hq))
        simp only [sumLens, List.map_cons, List.sum_cons] at ih2 ⊢
        omega

/-- The size/capacity invariant holds in every fresh-push reachable state. -/
theorem reachableFresh_inv (len : T → Nat) (c : FilterCache T)
    (hr : ReachableFresh len c) :
    c.size = sumLens len c.cache ∧ c.size ≤ c.capacity := by
  induction hr with
  | ofNew capacity => exact ⟨rfl, Nat.zero_le _⟩
  | ofPush c h f b c2 hr2 hget hpush ih =>
      obtain ⟨hsum, hcap⟩ := ih
      unfold push at hpush
      rw [if_pos hcap] at hpush
      by_cases hbig : c.capacity < len f
      · rw [if_pos hbig] at hpush
        simp only [Option.some.injEq, Prod.mk.injEq] at hpush
        obtain ⟨_, hc2⟩ := hpush
        subst hc2
        exact ⟨hsum, hcap⟩
      · rw [if_neg hbig] at hpush
        simp only [Option.some.injEq, Prod.mk.injEq] at hpush
        obtain ⟨_, hc2⟩ := hpush
        subst hc2
        obtain ⟨dropped, hd1, hd2, hd3⟩ := evict_spec len c.capacity
          (insertSorted h f c.cache) (c.size + len f)
        have hfresh : ∀ q ∈ c.cache, q.1 ≠ h := (get_eq_none_iff c h).mp hget
        have hins : sumLens len (insertSorted h f c.cache)
            = len f + sumLens len c.cache := sumLens_insertSorted len h f _ hfresh
        generalize hE : evict len c.capacity (insertSorted h f c.cache)
          (c.size + len f) = p at hd1 hd2 hd3 ⊢
        have hsplit : sumLens len dropped + sumLens len p.1
            = len f + sumLens len c.cache := by
          rw [← hins, hd1, sumLens_append]
        constructor
        · dsimp only
          omega
        · dsimp only
          rcases hd3 with hle | hnil
          · exact hle
          · rw [hnil] at hsplit
            rw [show sumLens len ([] : List (Nat × T)) = 0 from rfl] at hsplit
            omega
  | ofRollback c h hr2 ih =>
      obtain ⟨hsum, hcap⟩ := ih
      have hsplit := sumLens_filter len (fun q => decide (q.1 ≤ h)) c.cache
      unfold rollback
      constructor
      · dsimp only
        omega
      · dsimp only
        omega

/-- C9 (amended): for every sequence of `push` and `rollback` operations in
which each push is at a height not already cached, `size` equals the sum of
`len` over the cached filters and never exceeds `capacity`; `push` of a
filter larger than the whole capacity returns `false` leaving the cache
unchanged; and an accepted push evicts entries only from the lowest heights
(the resulting map is a suffix of the map after insertion), ending within
capacity. -/
theorem filterCache_invariant (T : Type) (len : T → Nat) :
    (∀ c : FilterCache T, ReachableFresh len c →
      c.size = sumLens len c.cache ∧ c.size ≤ c.capacity)
    ∧ (∀ (c : FilterCache T) (h : Nat) (f : T), ReachableFresh len c →
      c.capacity < len f → push len c h f = some (false, c))
    ∧ (∀ (c : FilterCache T) (h : Nat) (f : T) (c2 : FilterCache T),
      ReachableFresh len c → get c h = none →
      push len c h f = some (true, c2) →
      (∃ dropped, insertSorted h f c.cache = dropped ++ c2.cache)
        ∧ c2.size ≤ c2.capacity) := by
  refine ⟨reachableFresh_inv len, ?_, ?_⟩
  · intro c h f hr hbig
    obtain ⟨_, hcap⟩ := reachableFresh_inv len c hr
    unfold push
    rw [if_pos hcap, if_pos hbig]
  · intro c h f c2 hr hget hpush
    obtain ⟨hsum, hcap⟩ := reachableFresh_inv len c hr
    have hr2 : ReachableFresh len c2 :=
      ReachableFresh.ofPush c h f true c2 hr hget hpush
    obtain ⟨_, hcap2⟩ := reachableFresh_inv len c2 hr2
    refine ⟨?_, hcap2⟩
    unfold push at hpush
    rw [if_pos hcap] at hpush
    by_cases hbig : c.capacity < len f
    · rw [if_pos hbig] at hpush
      simp at hpush
    · rw [if_neg hbig] at hpush
      simp only [Option.some.injEq, Prod.mk.injEq] at hpush
      obtain ⟨_, hc2⟩ := hpush
      obtain ⟨dropped, hd1, _, _⟩ := evict_spec len c.capacity
        (insertSorted h f c.cache) (c.size + len f)
      refine ⟨dropped, ?_⟩
      rw [← hc2]
      exact hd1

/-- Witness for C9 at a concrete reachable cache (a fresh push onto a new
cache of capacity 10). -/
theorem filterCache_invariant_witness :
    (⟨[(1, 4)], 4, 10⟩ : FilterCache Nat).size
        = sumLens id (⟨[(1, 4)], 4, 10⟩ : FilterCache Nat).cache
      ∧ (⟨[(1, 4)], 4, 10⟩ : FilterCache Nat).size
        ≤ (⟨[(1, 4)], 4, 10⟩ : FilterCache Nat).capacity := by
  refine (filterCache_invariant Nat id).1 _ ?_
  refine ReachableFresh.ofPush (new 10) 1 4 true _ (ReachableFresh.ofNew 10)
    (by rfl) (by rfl)

/-- C9 counterexample: over an unrestricted operation sequence the claimed
invariant fails — pushing height 1 twice into a capacity-10 cache leaves
`size = 8` while the cached filters sum to `4`. -/
theorem filterCache_duplicate_push_counterexample :
    ((push id (new 10 : FilterCache Nat) 1 4).bind
        (fun p => (push id p.2 1 4).map Prod.snd)).map
        (fun c2 => (c2.size, sumLens id c2.cache)) = some (8, 4)
      ∧ (8 : Nat) ≠ 4 := by
  constructor
  · rfl
  · decide

end FilterCache

/-! ## Merkle-block rescan

Embedding of `src/p2p/src/fsm/bfmgr/rescan.rs` and the `HeightIterator` of
`src/p2p/src/fsm/bfmgr.rs`. Block hashes are `Nat` values; the block tree
is consumed only through `get_block_by_height(h).block_hash()`, modelled as
a function `tree : Nat → Option Nat`. -/

/-- Modelled from the spec: a BIP-37 merkle block, reduced to what the
rescan logic consumes — the txids that `extract_matches` yields for it (the
matched transactions of that block; the upstream implementation clears its
output vectors before filling them) and its consensus-encoded byte length
(the cache's `Filter::len`). The `bitcoincash` crate's
`MerkleBlock`/`PartialMerkleTree` are not under `src/`. -/
structure MerkleBlock where
  matched : List Nat
  encLen : Nat
deriving DecidableEq, Repr

/-- The `fsm::bfmgr::Event` constructors the rescan emits. -/
inductive REvent where
  | merkleBlockProcessed (height : Nat) (matchList : List Nat) (matched : Bool)
      (cached : Bool) (merkleBlock : MerkleBlock)
  | merkleBlockRescanStopped (height : Nat)
deriving DecidableEq, Repr

/-- An entry of the `received` queue: merkle block, block hash, cached flag. -/
abbrev RecvEntry := MerkleBlock × Nat × Bool

/-- `bfmgr::rescan::Rescan` — the fields the claims touch (`watch` and
`transactions` are not consumed by the embedded operations). The `received`
`HashMap` is an association list whose lookup takes the most recent
insertion; the source's `end` field is named `stop` here. -/
structure Rescan where
  active : Bool
  current : Nat
  start : Nat
  stop : Option Nat
  cache : FilterCache MerkleBlock
  requested : List Nat
  received : List (Nat × RecvEntry)
deriving DecidableEq, Repr

namespace Rescan

/-- `self.received.get(&h)` (`HashMap` lookup). -/
def lookupReceived (received : List (Nat × RecvEntry)) (h : Nat) :
    Option RecvEntry :=
  (received.find? (fun q => q.1 == h)).map (fun q => q.2)

/-- `self.received.remove(&h)` (`HashMap` removal of the key). -/
def eraseReceived (received : List (Nat × RecvEntry)) (h : Nat) :
    List (Nat × RecvEntry) :=
  received.filter (fun q => q.1 != h)

/-- `Rescan::restart`: set `active`, reset `start`, `current` and `end`,
clear `requested`. -/
def restart (r : Rescan) (start : Nat) (stop : Option Nat) : Rescan :=
  { r with
    active := true, start := start, current := start, stop := stop,
    requested := [] }

/-- C6 counterexample: `Rescan::restart` does not clear the `received`
queue — restarting a state holding a received merkle block at height 5
leaves that entry in place. -/
theorem rescan_restart_received_counterexample :
    (restart ⟨false, 9, 2, none, FilterCache.new 0, [3],
        [(5, (⟨[], 0⟩, 77, false))]⟩ 0 none).received ≠ [] := by
  decide

/-- C6 (amended): after `restart(start, end)` the state has `active = true`,
`current = start`, an empty `requested` set — and the `received` queue is
left unchanged. -/
theorem rescan_restart_state (r : Rescan) (start : Nat) (stop : Option Nat) :
    (restart r start stop).active = true
      ∧ (restart r start stop).current = start
      ∧ (restart r start stop).start = start
      ∧ (restart r start stop).stop = stop
      ∧ (restart r start stop).requested = []
      ∧ (restart r start stop).received = r.received :=
  ⟨rfl, rfl, rfl, rfl, rfl, rfl⟩

theorem eraseReceived_length_lt (received : List (Nat × RecvEntry)) (h : Nat)
    (e : RecvEntry) (hx : lookupReceived received h = some e) :
    (eraseReceived received h).length < received.length := by
  unfold lookupReceived at hx
  cases hf : received.find? (fun q => q.1 == h) with
  | none => rw [hf] at hx; cases hx
  | some q =>
      have hmem : q ∈ received := List.mem_of_find?_eq_some hf
      have hq := List.find?_some hf
      unfold eraseReceived
      have h1 : (received.filter (fun q => q.1 != h)).length ≤ received.length :=
        List.length_filter_le _ _
      rcases Nat.lt_or_ge (received.filter (fun q => q.1 != h)).length
          received.length with hlt | hge
      · exact hlt
      · exfalso
        have := List.filter_length_eq_length.mp (le_antisymm h1 hge) q hmem
        simp at this hq
        exact this hq

/-- How `lookupReceived` interacts with `eraseReceived` at another key. -/
theorem lookupReceived_eraseReceived_ne (received : List (Nat × RecvEntry))
    (k h : Nat) (hne : h ≠ k) :
    lookupReceived (eraseReceived received k) h = lookupReceived received h := by
  unfold lookupReceived eraseReceived
  induction received with
  | nil => rfl
  | cons q t ih =>
      by_cases hq : q.1 = k
      · have h1 : (q.1 != k) = false := by simp [hq]
        have h2 : (q.1 == h) = false := by
          subst hq
          simp
          omega
        simp only [List.filter_cons, h1, Bool.false_eq_true, if_false]
        rw [List.find?_cons_of_neg _ (by simp [h2])]
        exact ih
      · have h1 : (q.1 != k) = true := by simp [hq]
        simp only [List.filter_cons, h1, if_true]
        by_cases hqh : q.1 = h
        · rw [List.find?_cons_of_pos _ (by simp [hqh]),
            List.find?_cons_of_pos _ (by simp [hqh])]
        · rw [List.find?_cons_of_neg _ (by simp [hqh]),
            List.find?_cons_of_neg _ (by simp [hqh])]
          exact ih

/-- The result of the `Rescan::process` loop. -/
structure ProcessResult where
  blockMatches : List (Nat × Nat)
  events : List REvent
  current : Nat
  received : List (Nat × RecvEntry)
deriving DecidableEq, Repr

/-- The `while let Some(..) = self.received.remove(&current)` loop of
`Rescan::process`, with explicit fuel (the loop pops one queue entry per
iteration, so any fuel of at least `received.length` gives the loop's exact
behavior; at fuel 0 the queue is empty and the `none` branch coincides).
A popped block contributes `(height, block_hash)` iff `extract_matches`
yielded any txids; every popped block gets a `MerkleBlockProcessed` event.
The source's accumulators appear here as lists in append order. -/
def processLoopF : Nat → List (Nat × RecvEntry) → Nat → ProcessResult
  | 0, received, current => ⟨[], [], current, received⟩
  | fuel + 1, received, current =>
    match lookupReceived received current with
    | some e =>
        let rest := processLoopF fuel (eraseReceived received current) (current + 1)
        ⟨(if e.1.matched ≠ [] then [(current, e.2.1)] else []) ++ rest.blockMatches,
         REvent.merkleBlockProcessed current e.1.matched (decide (e.1.matched ≠ []))
             e.2.2 e.1 :: rest.events,
         rest.current,
         rest.received⟩
    | none => ⟨[], [], current, received⟩

/-- The `Rescan::process` loop. -/
def processLoop (received : List (Nat × RecvEntry)) (current : Nat) :
    ProcessResult :=
  processLoopF received.length received current

/-- `Rescan::process`: run the loop, then if `current` has reached the end
height, clear `active` and emit `MerkleBlockRescanStopped`. Returns
`(matches, events, advanced)` and the updated state. -/
def process (r : Rescan) : (List (Nat × Nat) × List REvent × Nat) × Rescan :=
  let res := processLoop r.received r.current
  match r.stop with
  | some stop =>
      if res.current = stop then
        ((res.blockMatches,
          res.events ++ [REvent.merkleBlockRescanStopped stop],
          res.current - r.current),
         { r with
           current := res.current, received := res.received,
           active := false })
      else
        ((res.blockMatches, res.events, res.current - r.current),
         { r with current := res.current, received := res.received })
  | none =>
      ((res.blockMatches, res.events, res.current - r.current),
       { r with current := res.current, received := res.received })

theorem processLoopF_spec (fuel : Nat) :
    ∀ (received : List (Nat × RecvEntry)) (current : Nat),
      received.length ≤ fuel →
      current ≤ (processLoopF fuel received current).current
      ∧ (∀ h, current ≤ h → h < (processLoopF fuel received current).current →
          (lookupReceived received h).isSome)
      ∧ (∀ p ∈ (processLoopF fuel received current).blockMatches,
          current ≤ p.1 ∧ p.1 < (processLoopF fuel received current).current)
      ∧ (∀ h mb bh cfl, lookupReceived received h = some (mb, bh, cfl) →
          current ≤ h → h < (processLoopF fuel received current).current →
          (((h, bh) ∈ (processLoopF fuel received current).blockMatches)
              ↔ mb.matched ≠ [])
            ∧ REvent.merkleBlockProcessed h mb.matched
                (decide (mb.matched ≠ [])) cfl mb
              ∈ (processLoopF fuel received current).events) := by
  induction fuel with
  | zero =>
      intro received current _
      refine ⟨le_rfl, ?_, ?_, ?_⟩
      · intro h h1 h2
        simp only [processLoopF] at h2
        omega
      · intro p hp
        simp only [processLoopF] at hp
        cases hp
      · intro h mb bh cfl _ h1 h2
        simp only [processLoopF] at h2
        omega
  | succ fuel ih =>
      intro received current hn
      cases hl : lookupReceived received current with
      | none =>
          simp only [processLoopF, hl]
          refine ⟨le_rfl, ?_, ?_, ?_⟩
          · intro h h1 h2
            omega
          · intro p hp
            cases hp
          · intro h mb bh cfl _ h1 h2
            omega
      | some e =>
          have hlen : (eraseReceived received current).length ≤ fuel := by
            have := eraseReceived_length_lt received current e hl
            omega
          obtain ⟨ihA, ihB, ihC, ihD⟩ :=
            ih (eraseReceived received current) (current + 1) hlen
          simp only [processLoopF, hl]
          refine ⟨by omega, ?_, ?_, ?_⟩
          · intro h h1 h2
            by_cases hh : h = current
            · subst hh
              rw [hl]
              rfl
            · have := ihB h (by omega) h2
              rw [lookupReceived_eraseReceived_ne received current h hh] at this
              exact this
          · intro p hp
            rcases List.mem_append.mp hp with hp1 | hp2
            · by_cases hm : e.1.matched ≠ []
              · rw [if_pos hm] at hp1
                rcases List.mem_singleton.mp hp1 with rfl
                exact ⟨le_rfl, by omega⟩
              · rw [if_neg hm] at hp1
                cases hp1
            · obtain ⟨hc1, hc2⟩ := ihC p hp2
              exact ⟨by omega, hc2⟩
          · intro h mb bh cfl hlk h1 h2
            by_cases hh : h = current
            · subst hh
              rw [hl] at hlk
              have he : e = (mb, bh, cfl) := by
                have := hlk
                injection this with hx
              subst he
              dsimp only
              constructor
              · constructor
                · intro hmem
                  rcases List.mem_append.mp hmem with hp1 | hp2
                  · by_cases hm : mb.matched ≠ []
                    · exact hm
                    · rw [if_neg hm] at hp1
                      cases hp1
                  · have := (ihC _ hp2).1
                    omega
                · intro hm
                  apply List.mem_append.mpr
                  left
                  rw [if_pos hm]
                  exact List.mem_singleton.mpr rfl
              · exact List.mem_cons_self _ _
            · have hlk2 : lookupReceived (eraseReceived received current) h
                  = some (mb, bh, cfl) := by
                rw [lookupReceived_eraseReceived_ne received current h hh]
                exact hlk
              obtain ⟨hiff, hev⟩ := ihD h mb bh cfl hlk2 (by omega) h2
              constructor
              · constructor
                · intro hmem
                  rcases List.mem_append.mp hmem with hp1 | hp2
                  · by_cases hm : e.1.matched ≠ []
                    · rw [if_pos hm] at hp1
                      rcases List.mem_singleton.mp hp1 with heq2
                      cases heq2
                      omega
                    · rw [if_neg hm] at hp1
                      cases hp1
                  · exact hiff.mp hp2
                · intro hm
                  exact List.mem_append.mpr (Or.inr (hiff.mpr hm))
              · exact List.mem_cons_of_mem _ hev

theorem process_projections (r : Rescan) :
    (process r).1.1 = (processLoop r.received r.current).blockMatches
      ∧ (process r).2.current = (processLoop r.received r.current).current
      ∧ (∀ ev, ev ∈ (processLoop r.received r.current).events →
          ev ∈ (process r).1.2.1) := by
  unfold process
  cases hst : r.stop with
  | none => exact ⟨rfl, rfl, fun ev hev => hev⟩
  | some stop =>
      dsimp only
      by_cases heq : (processLoop r.received r.current).current = stop
      · rw [if_pos heq]
        exact ⟨rfl, rfl, fun ev hev => List.mem_append.mpr (Or.inl hev)⟩
      · rw [if_neg heq]
        exact ⟨rfl, rfl, fun ev hev => hev⟩

theorem process_stop_facts (r : Rescan) (stop : Nat) (hstop : r.stop = some stop)
    (heq : (processLoop r.received r.current).current = stop) :
    (process r).2.active = false
      ∧ REvent.merkleBlockRescanStopped stop ∈ (process r).1.2.1 := by
  unfold process
  rw [hstop]
  dsimp only
  rw [if_pos heq]
  exact ⟨rfl, List.mem_append.mpr (Or.inr (List.mem_singleton.mpr rfl))⟩

/-- C5: `Rescan::process` pops consecutive entries `received[current]`,
`received[current + 1]`, …; a height is recorded in the returned match list
exactly when its own merkle block yields at least one matched txid; a block
with no matches of its own is not recorded, and its `MerkleBlockProcessed`
event carries `matched = false`; when `current` reaches the end height,
`active` becomes `false` and `MerkleBlockRescanStopped` is emitted. -/
theorem rescan_process_spec (r : Rescan) :
    (∀ h, r.current ≤ h → h < (process r).2.current →
        (lookupReceived r.received h).isSome)
    ∧ (∀ p ∈ (process r).1.1, r.current ≤ p.1 ∧ p.1 < (process r).2.current)
    ∧ (∀ h mb bh cfl, lookupReceived r.received h = some (mb, bh, cfl) →
        r.current ≤ h → h < (process r).2.current →
        (((h, bh) ∈ (process r).1.1) ↔ mb.matched ≠ [])
          ∧ (mb.matched = [] →
              REvent.merkleBlockProcessed h [] false cfl mb ∈ (process r).1.2.1))
    ∧ (∀ stop, r.stop = some stop → (process r).2.current = stop →
        (process r).2.active = false
          ∧ REvent.merkleBlockRescanStopped stop ∈ (process r).1.2.1) := by
  obtain ⟨hA, hB, hC, hD⟩ :=
    processLoopF_spec r.received.length r.received r.current le_rfl
  obtain ⟨hm, hc, hev⟩ := process_projections r
  refine ⟨?_, ?_, ?_, ?_⟩
  · intro h h1 h2
    rw [hc] at h2
    exact hB h h1 h2
  · intro p hp
    rw [hm] at hp
    rw [hc]
    exact hC p hp
  · intro h mb bh cfl hlk h1 h2
    rw [hc] at h2
    obtain ⟨hiff, hevm⟩ := hD h mb bh cfl hlk h1 h2
    constructor
    · rw [hm]
      exact hiff
    · intro hempty
      have hrw : REvent.merkleBlockProcessed h mb.matched
          (decide (mb.matched ≠ [])) cfl mb
          = REvent.merkleBlockProcessed h [] false cfl mb := by
        rw [hempty]
        simp
      rw [hrw] at hevm
      exact hev _ hevm
  · intro stop hstop heq
    rw [hc] at heq
    exact process_stop_facts r stop hstop heq

/-- Witness for C5: a concrete rescan with a matching block at height 1, a
non-matching one at height 2, and end height 3. -/
theorem rescan_process_spec_witness :
    ((1, 11) ∈ (process ⟨true, 1, 0, some 3, FilterCache.new 0, [],
        [(1, (⟨[7], 1⟩, 11, false)), (2, (⟨[], 1⟩, 12, true))]⟩).1.1)
      ∧ (process ⟨true, 1, 0, some 3, FilterCache.new 0, [],
          [(1, (⟨[7], 1⟩, 11, false)), (2, (⟨[], 1⟩, 12, true))]⟩).2.active
          = false
      ∧ REvent.merkleBlockProcessed 2 [] false true ⟨[], 1⟩
          ∈ (process ⟨true, 1, 0, some 3, FilterCache.new 0, [],
            [(1, (⟨[7], 1⟩, 11, false)), (2, (⟨[], 1⟩, 12, true))]⟩).1.2.1 := by
  obtain ⟨hA, hB, hC, hD⟩ := rescan_process_spec
    ⟨true, 1, 0, some 3, FilterCache.new 0, [],
      [(1, (⟨[7], 1⟩, 11, false)), (2, (⟨[], 1⟩, 12, true))]⟩
  refine ⟨?_, ?_, ?_⟩
  · exact (hC 1 ⟨[7], 1⟩ 11 false (by decide) (by decide) (by decide)).1.mpr
      (by decide)
  · exact (hD 3 rfl (by decide)).1
  · exact (hC 2 ⟨[], 1⟩ 12 true (by decide) (by decide) (by decide)).2 rfl

/-- `bfmgr::HeightIterator` with explicit fuel (each step advances `start`
by at least one, so fuel `stop + 1 - start` gives the iterator's exact
output): cut `[start, stop]` into chunks of at most `step = 25000`
heights. -/
def heightChunksF : Nat → Nat → Nat → List (Nat × Nat)
  | 0, _, _ => []
  | fuel + 1, start, stop =>
    if start ≤ stop then
      (start, min (start + 25000 - 1) stop) ::
        heightChunksF fuel (min (start + 25000 - 1) stop + 1) stop
    else []

/-- `HeightIterator { start, stop, step := 25000 }` collected to a list. -/
def heightChunks (start stop : Nat) : List (Nat × Nat) :=
  heightChunksF (stop + 1 - start) start stop

theorem heightChunksF_mem (fuel : Nat) :
    ∀ (a b : Nat), b + 1 - a ≤ fuel →
      ∀ p ∈ heightChunksF fuel a b,
        a ≤ p.1 ∧ p.1 ≤ p.2 ∧ p.2 ≤ b ∧ p.2 + 1 - p.1 ≤ 25000 := by
  induction fuel with
  | zero =>
      intro a b _ p hp
      simp [heightChunksF] at hp
  | succ fuel ih =>
      intro a b hab p hp
      simp only [heightChunksF] at hp
      by_cases hle : a ≤ b
      · rw [if_pos hle] at hp
        rcases List.mem_cons.mp hp with rfl | htl
        · dsimp only
          omega
        · have hrec := ih (min (a + 25000 - 1) b + 1) b (by omega) p htl
          omega
      · rw [if_neg hle] at hp
        cases hp

theorem heightChunks_mem (a b : Nat) :
    ∀ p ∈ heightChunks a b,
      a ≤ p.1 ∧ p.1 ≤ p.2 ∧ p.2 ≤ b ∧ p.2 + 1 - p.1 ≤ 25000 :=
  heightChunksF_mem (b + 1 - a) a b le_rfl

/-- The run-grouping loop of `Rescan::requests`, processing the ascending
list of missing heights: extend the last open run `[s, e]` while the next
height is `e + 1`, otherwise emit it and open a new run (the source folds,
pushing `h..=h` or bumping the end of the last pushed range). -/
def runsAux (s e : Nat) : List Nat → List (Nat × Nat)
  | [] => [(s, e)]
  | h :: t => if h = e + 1 then runsAux s (e + 1) t else (s, e) :: runsAux h h t

/-- Group an ascending list of heights into maximal consecutive runs. -/
def groupRuns : List Nat → List (Nat × Nat)
  | [] => []
  | h :: t => runsAux h h t

theorem runsAux_mem (P : Nat → Prop) (t : List Nat) :
    ∀ (s e : Nat), s ≤ e →
      (∀ x, s ≤ x → x ≤ e → P x) → (∀ x ∈ t, P x) →
      ∀ p ∈ runsAux s e t,
        p.1 ≤ p.2 ∧ ∀ x, p.1 ≤ x → x ≤ p.2 → P x := by
  induction t with
  | nil =>
      intro s e hse hPin _ p hp
      rcases List.mem_singleton.mp hp with rfl
      exact ⟨hse, hPin⟩
  | cons hd tl ih =>
      intro s e hse hPin hPt p hp
      simp only [runsAux] at hp
      by_cases hc : hd = e + 1
      · rw [if_pos hc] at hp
        refine ih s (e + 1) (by omega) ?_ ?_ p hp
        · intro x h1 h2
          by_cases hx : x ≤ e
          · exact hPin x h1 hx
          · have : x = hd := by omega
            exact this ▸ hPt hd (List.mem_cons_self _ _)
        · intro x hx
          exact hPt x (List.mem_cons_of_mem _ hx)
      · rw [if_neg hc] at hp
        rcases List.mem_cons.mp hp with rfl | htl
        · exact ⟨hse, hPin⟩
        · refine ih hd hd le_rfl ?_ ?_ p htl
          · intro x h1 h2
            have : x = hd := by omega
            exact this ▸ hPt hd (List.mem_cons_self _ _)
          · intro x hx
            exact hPt x (List.mem_cons_of_mem _ hx)

theorem groupRuns_mem (l : List Nat) :
    ∀ p ∈ groupRuns l, p.1 ≤ p.2 ∧ ∀ x, p.1 ≤ x → x ≤ p.2 → x ∈ l := by
  cases l with
  | nil =>
      intro p hp
      cases hp
  | cons hd tl =>
      refine runsAux_mem (· ∈ hd :: tl) tl hd hd le_rfl ?_ ?_
      · intro x h1 h2
        have : x = hd := by omega
        exact this ▸ List.mem_cons_self _ _
      · intro x hx
        exact List.mem_cons_of_mem _ hx

/-- One step of the cache-moving loop at the top of `Rescan::requests`:
if the height is cached and its header is in the tree, insert the cached
merkle block into the `received` queue with `cached = true`. -/
def moveCachedStep (tree : Nat → Option Nat) (st : Rescan) (h : Nat) : Rescan :=
  match FilterCache.get st.cache h, tree h with
  | some mb, some bh => { st with received := (h, (mb, bh, true)) :: st.received }
  | _, _ => st

/-- The `for height in range` cache-moving loop of `Rescan::requests`. -/
def moveCached (tree : Nat → Option Nat) (r : Rescan) (lo hi : Nat) : Rescan :=
  (List.range' lo (hi + 1 - lo)).foldl (moveCachedStep tree) r

theorem lookupReceived_cons_isSome (received : List (Nat × RecvEntry)) (k : Nat)
    (e : RecvEntry) (h : Nat) (hs : (lookupReceived received h).isSome) :
    (lookupReceived ((k, e) :: received) h).isSome := by
  unfold lookupReceived
  by_cases hk : k = h
  · rw [List.find?_cons_of_pos _ (by simp [hk])]
    rfl
  · rw [List.find?_cons_of_neg _ (by simp [hk])]
    exact hs

theorem lookupReceived_cons_self (received : List (Nat × RecvEntry)) (k : Nat)
    (e : RecvEntry) :
    lookupReceived ((k, e) :: received) k = some e := by
  unfold lookupReceived
  rw [List.find?_cons_of_pos _ (by simp)]
  rfl

theorem lookupReceived_cons_ne (received : List (Nat × RecvEntry)) (k : Nat)
    (e : RecvEntry) (h : Nat) (hne : k ≠ h) :
    lookupReceived ((k, e) :: received) h = lookupReceived received h := by
  unfold lookupReceived
  rw [List.find?_cons_of_neg _ (by simp [hne])]

theorem moveCachedStep_fields (tree : Nat → Option Nat) (st : Rescan) (h : Nat) :
    (moveCachedStep tree st h).requested = st.requested
      ∧ (moveCachedStep tree st h).cache = st.cache := by
  unfold moveCachedStep
  cases FilterCache.get st.cache h <;> cases tree h <;> exact ⟨rfl, rfl⟩

theorem moveCached_fields (tree : Nat → Option Nat) (l : List Nat) :
    ∀ st : Rescan,
      (l.foldl (moveCachedStep tree) st).requested = st.requested
        ∧ (l.foldl (moveCachedStep tree) st).cache = st.cache := by
  induction l with
  | nil =>
      intro st
      exact ⟨rfl, rfl⟩
  | cons hd tl ih =>
      intro st
      rw [List.foldl_cons]
      obtain ⟨h1, h2⟩ := ih (moveCachedStep tree st hd)
      obtain ⟨h3, h4⟩ := moveCachedStep_fields tree st hd
      exact ⟨h1.trans h3, h2.trans h4⟩

theorem moveCached_received_mono (tree : Nat → Option Nat) (l : List Nat) :
    ∀ (st : Rescan) (h : Nat), (lookupReceived st.received h).isSome →
      (lookupReceived (l.foldl (moveCachedStep tree) st).received h).isSome := by
  induction l with
  | nil =>
      intro st h hs
      exact hs
  | cons hd tl ih =>
      intro st h hs
      rw [List.foldl_cons]
      apply ih
      unfold moveCachedStep
      cases FilterCache.get st.cache hd with
      | none => cases tree hd <;> exact hs
      | some mb =>
          cases tree hd with
          | none => exact hs
          | some bh => exact lookupReceived_cons_isSome _ _ _ _ hs

theorem moveCached_untouched (tree : Nat → Option Nat) (l : List Nat) :
    ∀ (st : Rescan) (h : Nat), h ∉ l →
      lookupReceived (l.foldl (moveCachedStep tree) st).received h
        = lookupReceived st.received h := by
  induction l with
  | nil =>
      intro st h _
      rfl
  | cons hd tl ih =>
      intro st h hn
      rw [List.foldl_cons,
        ih _ h (fun hx => hn (List.mem_cons_of_mem _ hx))]
      unfold moveCachedStep
      cases FilterCache.get st.cache hd with
      | none => cases tree hd <;> rfl
      | some mb =>
          cases tree hd with
          | none => rfl
          | some bh =>
              exact lookupReceived_cons_ne _ _ _ _
                (fun he => hn (he ▸ List.mem_cons_self _ _))

theorem moveCached_cached (tree : Nat → Option Nat) (l : List Nat) :
    ∀ (st : Rescan) (h : Nat), h ∈ l → l.Nodup →
      ∀ mb, FilterCache.get st.cache h = some mb →
      ∀ bh, tree h = some bh →
      lookupReceived (l.foldl (moveCachedStep tree) st).received h
        = some (mb, bh, true) := by
  induction l with
  | nil =>
      intro st h hm
      cases hm
  | cons hd tl ih =>
      intro st h hm hnd mb hmb bh hbh
      rw [List.foldl_cons]
      rcases List.mem_cons.mp hm with rfl | htl
      · have hstep : (moveCachedStep tree st h).received
            = (h, (mb, bh, true)) :: st.received := by
          unfold moveCachedStep
          rw [hmb, hbh]
        have hnot : h ∉ tl := (List.nodup_cons.mp hnd).1
        rw [moveCached_untouched tree tl _ h hnot, hstep]
        exact lookupReceived_cons_self _ _ _
      · have hcache := (moveCachedStep_fields tree st hd).2
        exact ih _ h htl (List.nodup_cons.mp hnd).2 mb (hcache ▸ hmb) bh hbh

/-- The ascending list of heights in `[lo, hi]` that are neither in the
(`moveCached`-updated) `received` queue nor in `requested`: the
`range.collect::<BTreeSet>().difference(&skip)` of the source. -/
def missingOf (tree : Nat → Option Nat) (r : Rescan) (lo hi : Nat) : List Nat :=
  (List.range' lo (hi + 1 - lo)).filter
    (fun h => !((lookupReceived (moveCached tree r lo hi).received h).isSome
      || (moveCached tree r lo hi).requested.contains h))

/-- The outgoing ranges of `Rescan::requests`: the missing heights grouped
into consecutive runs, each split into chunks of at most 25000 heights. -/
def rangesOf (tree : Nat → Option Nat) (r : Rescan) (lo hi : Nat) :
    List (Nat × Nat) :=
  (groupRuns (missingOf tree r lo hi)).flatMap (fun q => heightChunks q.1 q.2)

/-- `Rescan::requests` over the inclusive range `[lo, hi]`: empty ranges
yield nothing; otherwise cached heights are moved into `received`, the
missing heights are grouped and chunked, and every height of the returned
ranges is recorded in `requested`. -/
def requests (tree : Nat → Option Nat) (r : Rescan) (lo hi : Nat) :
    List (Nat × Nat) × Rescan :=
  if lo > hi then ([], r)
  else
    (rangesOf tree r lo hi,
     { moveCached tree r lo hi with
       requested := (moveCached tree r lo hi).requested
         ++ (rangesOf tree r lo hi).flatMap
              (fun q => List.range' q.1 (q.2 + 1 - q.1)) })

theorem missingOf_mem (tree : Nat → Option Nat) (r : Rescan) (lo hi h : Nat)
    (hm : h ∈ missingOf tree r lo hi) :
    lo ≤ h ∧ h ≤ hi ∧ hi ≥ lo
      ∧ lookupReceived (moveCached tree r lo hi).received h = none
      ∧ h ∉ (moveCached tree r lo hi).requested := by
  unfold missingOf at hm
  obtain ⟨hra, hcond⟩ := List.mem_filter.mp hm
  obtain ⟨h1, h2⟩ := List.mem_range'_1.mp hra
  simp only [Bool.not_eq_true', Bool.or_eq_false_iff] at hcond
  obtain ⟨hc1, hc2⟩ := hcond
  refine ⟨h1, by omega, by omega, ?_, ?_⟩
  · cases hx : lookupReceived (moveCached tree r lo hi).received h with
    | none => rfl
    | some e =>
        rw [hx] at hc1
        cases hc1
  · intro hmem
    have hc2m : ¬ h ∈ (moveCached tree r lo hi).requested := by
      simpa using hc2
    exact hc2m hmem

/-- C4: every range returned by `Rescan::requests` is a sub-range of the
input of at most 25000 heights containing no height that was in `received`
or `requested` at the start of the call; and every height of the input
range with a cache entry whose header is in the tree is moved into
`received` with `cached = true` instead of being returned for request. -/
theorem rescan_requests_spec (tree : Nat → Option Nat) (r : Rescan)
    (lo hi : Nat) :
    (∀ p ∈ (requests tree r lo hi).1,
        p.1 ≤ p.2 ∧ p.2 + 1 - p.1 ≤ 25000 ∧
        ∀ h, p.1 ≤ h → h ≤ p.2 →
          lo ≤ h ∧ h ≤ hi ∧ lookupReceived r.received h = none
            ∧ h ∉ r.requested)
    ∧ (∀ h, lo ≤ h → h ≤ hi →
        ∀ mb, FilterCache.get r.cache h = some mb →
        ∀ bh, tree h = some bh →
          lookupReceived (requests tree r lo hi).2.received h
              = some (mb, bh, true)
            ∧ ∀ p ∈ (requests tree r lo hi).1, ¬ (p.1 ≤ h ∧ h ≤ p.2)) := by
  have hfields := moveCached_fields tree (List.range' lo (hi + 1 - lo)) r
  by_cases hrange : lo > hi
  · rw [requests, if_pos hrange]
    constructor
    · intro p hp
      cases hp
    · intro h h1 h2
      exact absurd (le_trans h1 h2) (not_le.mpr hrange)
  · rw [requests, if_neg hrange]
    have hmemLemma : ∀ h p, p ∈ rangesOf tree r lo hi → p.1 ≤ h → h ≤ p.2 →
        h ∈ missingOf tree r lo hi := by
      intro h p hp hph1 hph2
      obtain ⟨q, hq, hpq⟩ := List.mem_flatMap.mp hp
      obtain ⟨hq12, hqmem⟩ := groupRuns_mem _ q hq
      obtain ⟨hb1, hb2, hb3, _⟩ := heightChunks_mem q.1 q.2 p hpq
      exact hqmem h (by omega) (by omega)
    constructor
    · intro p hp
      obtain ⟨q, hq, hpq⟩ := List.mem_flatMap.mp hp
      obtain ⟨hq12, hqmem⟩ := groupRuns_mem _ q hq
      obtain ⟨hb1, hb2, hb3, hb4⟩ := heightChunks_mem q.1 q.2 p hpq
      refine ⟨hb2, hb4, ?_⟩
      intro h hh1 hh2
      have hmiss := hmemLemma h p hp hh1 hh2
      obtain ⟨hm1, hm2, _, hm4, hm5⟩ := missingOf_mem tree r lo hi h hmiss
      refine ⟨hm1, hm2, ?_, ?_⟩
      · cases hx : lookupReceived r.received h with
        | none => rfl
        | some e =>
            exfalso
            have hs : (lookupReceived r.received h).isSome := by
              rw [hx]
              rfl
            have hmono := moveCached_received_mono tree
              (List.range' lo (hi + 1 - lo)) r h hs
            unfold moveCached at hm4
            rw [hm4] at hmono
            cases hmono
      · intro hmem
        unfold moveCached at hm5
        rw [hfields.1] at hm5
        exact hm5 hmem
    · intro h h1 h2 mb hmb bh hbh
      have hcached : lookupReceived (moveCached tree r lo hi).received h
          = some (mb, bh, true) := by
        unfold moveCached
        refine moveCached_cached tree _ r h ?_ (List.nodup_range' lo _) mb hmb bh hbh
        exact List.mem_range'_1.mpr ⟨h1, by omega⟩
      constructor
      · exact hcached
      · intro p hp hcontra
        have hmiss := hmemLemma h p hp hcontra.1 hcontra.2
        obtain ⟨_, _, _, hm4, _⟩ := missingOf_mem tree r lo hi h hmiss
        rw [hcached] at hm4
        cases hm4

/-- Witness for C4: a concrete state with a received height 4, a requested
height 5, a cached height 2 present in the tree, over the range `[1, 6]`. -/
theorem rescan_requests_spec_witness :
    ((1, 1) ∈ (requests (fun h => if h = 2 then some 22 else none)
        ⟨true, 0, 0, none, ⟨[(2, ⟨[9], 3⟩)], 3, 10⟩, [5],
          [(4, (⟨[], 1⟩, 44, false))]⟩ 1 6).1)
      ∧ lookupReceived (requests (fun h => if h = 2 then some 22 else none)
          ⟨true, 0, 0, none, ⟨[(2, ⟨[9], 3⟩)], 3, 10⟩, [5],
            [(4, (⟨[], 1⟩, 44, false))]⟩ 1 6).2.received 2
          = some (⟨[9], 3⟩, 22, true)
      ∧ lookupReceived
          (⟨true, 0, 0, none, ⟨[(2, ⟨[9], 3⟩)], 3, 10⟩, [5],
            [(4, (⟨[], 1⟩, 44, false))]⟩ : Rescan).received 1 = none := by
  obtain ⟨hOut, hCached⟩ := rescan_requests_spec
    (fun h => if h = 2 then some 22 else none)
    ⟨true, 0, 0, none, ⟨[(2, ⟨[9], 3⟩)], 3, 10⟩, [5],
      [(4, (⟨[], 1⟩, 44, false))]⟩ 1 6
  refine ⟨by decide, ?_, ?_⟩
  · exact (hCached 2 (by decide) (by decide) ⟨[9], 3⟩ (by decide) 22
      (by decide)).1
  · exact ((hOut (1, 1) (by decide)).2.2 1 (by decide) (by decide)).2.2.1

end Rescan

/-! ## Difficulty retargeting

Embedding of `BlockReader::next_difficulty_target` and
`BlockReader::get_suitable_blocks` from `src/common/src/block/tree.rs`. -/

/-- A block header as the difficulty rules consume it: timestamp (`u32`)
and compact difficulty bits (`u32`). -/
structure Header where
  time : Nat
  bits : Nat
deriving DecidableEq, Repr

/-- Modelled from the spec: the consensus parameters consumed by
`next_difficulty_target` (`bitcoincash::consensus::params::Params`, not
under `src/`); the spec fixes the difficulty adjustment interval at 2016
blocks, i.e. `pow_target_timespan / pow_target_spacing` for the standard
1209600 s / 600 s parameters. -/
structure Params where
  powTargetTimespan : Nat
  powTargetSpacing : Nat
  noPowRetargeting : Bool
  powLimit : Nat
deriving DecidableEq, Repr

/-- `Params::difficulty_adjustment_interval`. -/
def difficultyAdjustmentInterval (p : Params) : Nat :=
  p.powTargetTimespan / p.powTargetSpacing

/-- `BlockReader::next_difficulty_target`. The chain is the active chain's
headers indexed by height (`get_block_by_height`); `compact` abstracts
`BlockHeader::compact_target_from_u256` (the compact encoding of a 256-bit
target, from the `bitcoincash` crate); the `u32` timespan subtraction and
casts wrap modulo `2 ^ 32`; `Uint256::mul_u32` wraps modulo `2 ^ 256`; the
`genesis()` fallback of the missing-block case is the header at height 0
(defaulting to a zero header where the source would panic). -/
def nextDifficultyTarget (compact : Nat → Nat) (chain : List Header)
    (lastHeight lastTime lastTarget : Nat) (p : Params) : Nat :=
  if (lastHeight + 1) % difficultyAdjustmentInterval p ≠ 0 then
    compact lastTarget
  else
    let lastAdjHeight := lastHeight - (difficultyAdjustmentInterval p - 1)
    let lastAdjBlock := (chain[lastAdjHeight]?).getD ((chain[0]?).getD ⟨0, 0⟩)
    if p.noPowRetargeting then
      lastAdjBlock.bits
    else
      let actualTimespan :=
        (lastTime + 2 ^ 32 - lastAdjBlock.time % 2 ^ 32) % 2 ^ 32
      let ts32 := p.powTargetTimespan % 2 ^ 32
      let adjustedTimespan :=
        if actualTimespan < ts32 / 4 then ts32 / 4
        else if actualTimespan > ts32 * 4 % 2 ^ 32 then ts32 * 4 % 2 ^ 32
        else actualTimespan
      let target := lastTarget * adjustedTimespan % 2 ^ 256
      let target := target / p.powTargetTimespan
      let target := if target > p.powLimit then p.powLimit else target
      compact target

/-- C7: off an adjustment boundary, `next_difficulty_target` returns the
compact encoding of the previous target; on a boundary (with retargeting
enabled and all `u32`/`u256` quantities in range) it returns the compact
encoding of `last_target · clamp(actual, T/4, 4T) / T` capped at
`pow_limit`, where `actual` is `last_time` minus the timestamp of the block
2015 heights earlier; and when the actual timespan is one tenth of the
target timespan (within the cap), the result is
`compact (last_target · (T/4) / T)`. -/
theorem next_difficulty_target_spec (compact : Nat → Nat) (chain : List Header)
    (lastHeight lastTime lastTarget : Nat) (p : Params)
    (hI : difficultyAdjustmentInterval p = 2016) :
    ((lastHeight + 1) % 2016 ≠ 0 →
      nextDifficultyTarget compact chain lastHeight lastTime lastTarget p
        = compact lastTarget)
    ∧ (∀ b : Header, (lastHeight + 1) % 2016 = 0 →
        p.noPowRetargeting = false →
        chain[lastHeight - 2015]? = some b →
        b.time ≤ lastTime → lastTime < 2 ^ 32 →
        p.powTargetTimespan * 4 < 2 ^ 32 →
        lastTarget * (min (max (lastTime - b.time) (p.powTargetTimespan / 4))
            (p.powTargetTimespan * 4)) < 2 ^ 256 →
        nextDifficultyTarget compact chain lastHeight lastTime lastTarget p
          = compact (min (lastTarget
              * min (max (lastTime - b.time) (p.powTargetTimespan / 4))
                  (p.powTargetTimespan * 4)
              / p.powTargetTimespan) p.powLimit))
    ∧ (∀ b : Header, (lastHeight + 1) % 2016 = 0 →
        p.noPowRetargeting = false →
        chain[lastHeight - 2015]? = some b →
        b.time ≤ lastTime → lastTime < 2 ^ 32 →
        p.powTargetTimespan * 4 < 2 ^ 32 →
        lastTime - b.time = p.powTargetTimespan / 10 →
        p.powTargetTimespan / 10 < p.powTargetTimespan / 4 →
        lastTarget * (p.powTargetTimespan / 4) < 2 ^ 256 →
        lastTarget * (p.powTargetTimespan / 4) / p.powTargetTimespan
            ≤ p.powLimit →
        nextDifficultyTarget compact chain lastHeight lastTime lastTarget p
          = compact (lastTarget * (p.powTargetTimespan / 4)
              / p.powTargetTimespan)) := by
  refine ⟨?_, ?_, ?_⟩
  · intro hne
    unfold nextDifficultyTarget
    rw [hI, if_pos hne]
  · intro b hb0 hnr hbl hble hlt32 hT4 hov
    unfold nextDifficultyTarget
    rw [hI, if_neg (by omega)]
    simp only [show (2016 : Nat) - 1 = 2015 from by norm_num]
    rw [hbl, Option.getD_some]
    simp only [hnr, Bool.false_eq_true, if_false]
    have hat : (lastTime + 2 ^ 32 - b.time % 2 ^ 32) % 2 ^ 32
        = lastTime - b.time := by omega
    have hts : p.powTargetTimespan % 2 ^ 32 = p.powTargetTimespan := by omega
    have hup : p.powTargetTimespan * 4 % 2 ^ 32 = p.powTargetTimespan * 4 := by
      omega
    rw [hat, hts, hup]
    have hadj : (if lastTime - b.time < p.powTargetTimespan / 4 then
          p.powTargetTimespan / 4
        else if lastTime - b.time > p.powTargetTimespan * 4 then
          p.powTargetTimespan * 4
        else lastTime - b.time)
        = min (max (lastTime - b.time) (p.powTargetTimespan / 4))
            (p.powTargetTimespan * 4) := by
      split_ifs <;> omega
    rw [hadj, Nat.mod_eq_of_lt hov]
    apply congrArg
    split_ifs <;> omega
  · intro b hb0 hnr hbl hble hlt32 hT4 hteq htlt hov hcap
    unfold nextDifficultyTarget
    rw [hI, if_neg (by omega)]
    simp only [show (2016 : Nat) - 1 = 2015 from by norm_num]
    rw [hbl, Option.getD_some]
    simp only [hnr, Bool.false_eq_true, if_false]
    have hat : (lastTime + 2 ^ 32 - b.time % 2 ^ 32) % 2 ^ 32
        = lastTime - b.time := by omega
    have hts : p.powTargetTimespan % 2 ^ 32 = p.powTargetTimespan := by omega
    have hup : p.powTargetTimespan * 4 % 2 ^ 32 = p.powTargetTimespan * 4 := by
      omega
    rw [hat, hts, hup]
    have hadj : (if lastTime - b.time < p.powTargetTimespan / 4 then
          p.powTargetTimespan / 4
        else if lastTime - b.time > p.powTargetTimespan * 4 then
          p.powTargetTimespan * 4
        else lastTime - b.time) = p.powTargetTimespan / 4 := by
      rw [if_pos (by omega)]
    rw [hadj, Nat.mod_eq_of_lt hov, if_neg (by omega)]

/-- Witness for C7 at the mainnet parameters with a 2015-block span whose
actual timespan is one tenth of the two-week target timespan. -/
theorem next_difficulty_target_spec_witness :
    nextDifficultyTarget id [⟨100, 0⟩] 2015 121060 65536
        ⟨1209600, 600, false, 2 ^ 224⟩
      = 65536 * (1209600 / 4) / 1209600 := by
  have h := next_difficulty_target_spec id [⟨100, 0⟩] 2015 121060 65536
    ⟨1209600, 600, false, 2 ^ 224⟩ (by decide)
  exact h.2.2 ⟨100, 0⟩ (by decide) rfl rfl (by decide) (by decide)
    (by decide) (by decide) (by decide) (by decide) (by decide)

/-- `BlockReader::get_suitable_blocks` exactly as written: `blocks` is
`[grandparent, parent, block]`; each sort step calls
`std::mem::swap(&mut blocks[i].clone(), &mut blocks[j])`, which writes
`blocks[i]`'s value into `blocks[j]` and discards `blocks[j]`'s old value
into the dropped temporary clone — `blocks[i]` itself is never updated;
the function returns `blocks[1]`. -/
def get_suitable_blocks (blk0 blk1 blk2 : Header) : Header :=
  let b2a := if blk0.time > blk2.time then blk0 else blk2
  let b1a := if blk0.time > blk1.time then blk0 else blk1
  let _b2b := if b1a.time > b2a.time then b1a else b2a
  b1a

/-- The median-by-timestamp of three headers, as the function's own doc
comment ("returns the median block based on their timestamps") and the spec
describe. -/
def medianByTime (b0 b1 b2 : Header) : Header :=
  let s01 := if b0.time ≤ b1.time then (b0, b1) else (b1, b0)
  if s01.2.time ≤ b2.time then s01.2
  else if s01.1.time ≤ b2.time then b2
  else s01.1

/-- C8: the failing input. With timestamps 3 (grandparent), 1 (parent),
2 (block), `get_suitable_blocks` returns the grandparent (timestamp 3),
not the median of the three (timestamp 2): the broken `mem::swap` on a
temporary clone never sorts, so the cash-work DAA is fed a non-median
block, contradicting the function's own doc comment and the spec. -/
theorem get_suitable_blocks_not_median :
    get_suitable_blocks ⟨3, 0⟩ ⟨1, 0⟩ ⟨2, 0⟩ = ⟨3, 0⟩
      ∧ medianByTime ⟨3, 0⟩ ⟨1, 0⟩ ⟨2, 0⟩ = ⟨2, 0⟩
      ∧ get_suitable_blocks ⟨3, 0⟩ ⟨1, 0⟩ ⟨2, 0⟩
          ≠ medianByTime ⟨3, 0⟩ ⟨1, 0⟩ ⟨2, 0⟩ := by
  refine ⟨rfl, rfl, by decide⟩

end NakamotoCash